import Mathlib

/-!
# LZ77 AXI-Stream test-vector generator: a shallow embedding

Shallow embedding of `scripts/lz77_gen_vectors.py`:

* `compress` — the greedy windowed LZ77 encoder (`compress` in the source);
* `decompress_stream` — the golden-model decoder with an unbounded output
  buffer and a history buffer truncated to the last `window_size` bytes
  after every single append (`decompress_stream` in the source);
* `pack_token_word` — the token packer (`pack_token_word`, nested in
  `write_mem_files` in the source).

Bytes are modelled as `Nat` (Python `bytes` elements are ints in `[0,255]`);
machine-width effects are explicit (`&&&` with `2^w - 1`).  Python `raise`
is modelled by `Except`: the two `ValueError`s of the decoder become
`DecErr.distZero` / `DecErr.distTooFar`, an out-of-range `hist[start+k]`
read (Python `IndexError`) becomes `DecErr.histOob`, and the final
`bytes(out_full)` conversion, which raises when an element exceeds 255,
becomes `DecErr.byteOverflow`.  Bounded `while`/`for` loops are embedded
with an explicit decreasing counter.
-/

namespace LZ77

/-- A token `(distance, length, literal)`, as in the source. -/
abbrev Token := Nat × Nat × Nat

/-! ## Encoder (`compress`, source lines 7-49) -/

/-- Inner `while` of `compress` (source lines 27-34): extend `ml` while
`i + ml < n`, `j + ml < i`, `ml < max_length` and the bytes agree.  The
counter `rem` stands for `max_length - ml`, so `rem > 0` is the source's
`match_len < max_length` guard. -/
def matchLenGo (data : List Nat) (i j : Nat) : Nat → Nat → Nat
  | 0, ml => ml
  | rem + 1, ml =>
    if i + ml < data.length ∧ j + ml < i ∧ data[j + ml]? = data[i + ml]? then
      matchLenGo data i j rem (ml + 1)
    else ml

/-- Match length of candidate start `j` against position `i`. -/
def matchLen (data : List Nat) (M i j : Nat) : Nat :=
  matchLenGo data i j M 0

/-- Body of the candidate scan (source lines 22-39): skip when
`dist = 0 ∨ dist > window_size`, else accept as best only on a strictly
longer match with at least one byte left after it for the literal. -/
def bestStep (data : List Nat) (W M i : Nat) (b : Nat × Nat) (j : Nat) :
    Nat × Nat :=
  if i - j = 0 ∨ W < i - j then b
  else if b.2 < matchLen data M i j ∧ i + matchLen data M i j < data.length then
    (i - j, matchLen data M i j)
  else b

/-- The candidate scan `for j in range(max(0, i-window_size), i)`, folded
left over increasing `j`, returning `(best_dist, best_len)`. -/
def bestSearch (data : List Nat) (W M i : Nat) : Nat × Nat :=
  (List.range' (i - W) (i - (i - W))).foldl (bestStep data W M i) (0, 0)

/-- Outer `while i < n` of `compress` (source lines 17-47).  The counter
`fuel` only bounds the iteration count; `compress` supplies
`fuel = data.length`, which suffices since every token advances `i` by at
least one. -/
def compressGo (data : List Nat) (W M : Nat) : Nat → Nat → List Token
  | 0, _ => []
  | fuel + 1, i =>
    if i < data.length then
      let b := bestSearch data W M i
      if 0 < b.2 then
        (b.1, b.2, data.getD (i + b.2) 0) :: compressGo data W M fuel (i + b.2 + 1)
      else
        (0, 0, data.getD i 0) :: compressGo data W M fuel (i + 1)
    else []

/-- `compress(data, window_size, max_length)` (source lines 7-49). -/
def compress (data : List Nat) (W M : Nat) : List Token :=
  compressGo data W M data.length 0

/-! ## Decoder (`decompress_stream`, source lines 52-88) -/

/-- The ways `decompress_stream` can raise: the two explicit `ValueError`s
(source lines 67 and 69), an out-of-range `hist[start + k]` read (Python
`IndexError`, source line 75), and a non-byte value reaching
`bytes(out_full)` (source line 88). -/
inductive DecErr
  | distZero
  | distTooFar
  | histOob
  | byteOverflow
deriving DecidableEq, Repr

/-- `hist = hist[-window_size:]` applied when `len(hist) > window_size`
(source lines 78-79 and 85-86). -/
def trunc (W : Nat) (s : List Nat) : List Nat :=
  if W < s.length then s.drop (s.length - W) else s

/-- The copy loop `for k in range(length)` (source lines 74-79): read
`hist[start + k]` from the *current* (possibly already truncated) history,
append to both buffers, truncate the history after every single append.
`rem` counts the remaining iterations (`length - k`). -/
def copyLoop (W start : Nat) :
    Nat → Nat → List Nat → List Nat → Except DecErr (List Nat × List Nat)
  | 0, _, out, hist => .ok (out, hist)
  | rem + 1, k, out, hist =>
    match hist[start + k]? with
    | none => .error .histOob
    | some b => copyLoop W start rem (k + 1) (out ++ [b]) (trunc W (hist ++ [b]))

/-- One iteration of the decoder's token loop (source lines 61-86),
including the post-token truncation (lines 85-86). -/
def decodeToken (W : Nat) (t : Token) (out hist : List Nat) :
    Except DecErr (List Nat × List Nat) :=
  if t.2.1 = 0 then
    .ok (out ++ [t.2.2], trunc W (hist ++ [t.2.2]))
  else if t.1 = 0 then .error .distZero
  else if hist.length < t.1 then .error .distTooFar
  else
    match copyLoop W (hist.length - t.1) t.2.1 0 out hist with
    | .error e => .error e
    | .ok (out2, hist2) =>
      .ok (out2 ++ [t.2.2], trunc W (hist2 ++ [t.2.2]))

/-- The decoder's token loop, threading `(out_full, hist)`. -/
def runTokens (W : Nat) : List Token → List Nat × List Nat →
    Except DecErr (List Nat × List Nat)
  | [], s => .ok s
  | t :: ts, (out, hist) =>
    match decodeToken W t out hist with
    | .error e => .error e
    | .ok s => runTokens W ts s

/-- `decompress_stream(tokens, window_size)` (source lines 52-88).  The
final `bytes(out_full)` raises iff some element exceeds 255. -/
def decompress_stream (tokens : List Token) (W : Nat) :
    Except DecErr (List Nat) :=
  match runTokens W tokens ([], []) with
  | .error e => .error e
  | .ok (out, _) => if out.all (fun b => b ≤ 255) then .ok out else .error .byteOverflow

/-! ## Token packer (`pack_token_word`, source lines 106-117) -/

/-- The three `ValueError`s of `pack_token_word` (source lines 107-112). -/
inductive PackErr
  | distTooWide
  | lenTooWide
  | litInvalid
deriving DecidableEq, Repr

/-- `pack_token_word(dist, length, lit)` with the enclosing
`dist_width`, `len_width`, `token_w` configuration (source lines 106-117).
The `lit < 0` half of the literal check is vacuous over `Nat`. -/
def pack_token_word (dist_width len_width token_w dist length lit : Nat) :
    Except PackErr Nat :=
  if (1 <<< dist_width) ≤ dist then .error .distTooWide
  else if (1 <<< len_width) ≤ length then .error .lenTooWide
  else if 255 < lit then .error .litInvalid
  else .ok ((((dist <<< (len_width + 8)) ||| (length <<< 8)) ||| lit) &&&
    ((1 <<< token_w) - 1))

/-! ## Statement-side definitions -/

/-- The decoder's own back-reference validity check on a token, relative to
the history it is decoded against: a token is bad when `length > 0` and
`distance = 0` or `distance` exceeds the available history (the conditions
of source lines 66-69). -/
def badTok (t : Token) (hist : List Nat) : Prop :=
  0 < t.2.1 ∧ (t.1 = 0 ∨ hist.length < t.1)

instance (t : Token) (hist : List Nat) : Decidable (badTok t hist) := by
  unfold badTok; infer_instance

/-- An error is an `InvalidBackReference` in the spec's sense: one of the
two decoder `ValueError`s. -/
def isIBR (e : DecErr) : Prop := e = .distZero ∨ e = .distTooFar

instance (e : DecErr) : Decidable (isIBR e) := by
  unfold isIBR; infer_instance

/-- Modelled from the spec: the growing-history read rule for an
overlapping copy, with no truncation — each copied byte is read `d`
positions back from the current end of the reconstructed stream, so runs
self-extend.  Returns the stream extended by `l` bytes. -/
def selfExtendGo (s : List Nat) (d : Nat) : Nat → List Nat
  | 0 => s
  | l + 1 => selfExtendGo (s ++ [s.getD (s.length - d) 0]) d l

/-- The effective value of candidate `j` at position `i`: its match length
when a trailing literal exists after the match, else `0` (such a candidate
can never be accepted, source line 37). -/
def accLen (data : List Nat) (M i j : Nat) : Nat :=
  if i + matchLen data M i j < data.length then matchLen data M i j else 0

/-! ## Basic lemmas about the embedding -/

theorem trunc_length (W : Nat) (s : List Nat) :
    (trunc W s).length = min s.length W := by
  unfold trunc
  split <;> simp <;> omega

theorem trunc_length_le (W : Nat) (s : List Nat) :
    (trunc W s).length ≤ W ∨ trunc W s = s := by
  unfold trunc
  split
  · left; simp; omega
  · right; rfl

theorem mem_trunc {W : Nat} {s : List Nat} {x : Nat} (h : x ∈ trunc W s) :
    x ∈ s := by
  unfold trunc at h
  split at h
  · exact List.mem_of_mem_drop h
  · exact h

theorem trunc_eq_of_le {W : Nat} {s : List Nat} (h : s.length ≤ W) :
    trunc W s = s := by
  unfold trunc
  split
  · omega
  · rfl

theorem matchLenGo_le (data : List Nat) (i j : Nat) :
    ∀ rem ml, matchLenGo data i j rem ml ≤ ml + rem := by
  intro rem
  induction rem with
  | zero => intro ml; simp [matchLenGo]
  | succ r ih =>
    intro ml
    unfold matchLenGo
    split
    · exact le_trans (ih (ml + 1)) (by omega)
    · omega

theorem matchLen_le_max (data : List Nat) (M i j : Nat) :
    matchLen data M i j ≤ M := by
  have := matchLenGo_le data i j M 0
  simpa [matchLen] using this

theorem matchLenGo_add_le (data : List Nat) (i j : Nat) :
    ∀ rem ml, j + ml ≤ i → j + matchLenGo data i j rem ml ≤ i := by
  intro rem
  induction rem with
  | zero => intro ml h; simpa [matchLenGo] using h
  | succ r ih =>
    intro ml h
    unfold matchLenGo
    split
    · next hc => exact ih (ml + 1) (by omega)
    · exact h

theorem matchLen_le_dist (data : List Nat) (M i j : Nat) :
    matchLen data M i j ≤ i - j := by
  unfold matchLen
  rcases le_or_lt j i with h | h
  · have := matchLenGo_add_le data i j M 0 (by omega)
    omega
  · cases M with
    | zero => simp [matchLenGo]
    | succ m =>
      unfold matchLenGo
      split
      · next hc => omega
      · omega

/-- Folding preserves an invariant of the accumulator. -/
theorem foldl_inv {α β : Type} (P : β → Prop) (f : β → α → β)
    (hf : ∀ b a, P b → P (f b a)) :
    ∀ (L : List α) (b : β), P b → P (L.foldl f b) := by
  intro L
  induction L with
  | nil => intro b hb; simpa using hb
  | cons a L ih => intro b hb; exact ih (f b a) (hf b a hb)

/-- The running best of the candidate scan: distance bounded by the window
and the position, length bounded by the distance and by `max_length`, a
positive length leaves room for the trailing literal, and length zero
forces distance zero. -/
def BestInv (data : List Nat) (W M i : Nat) (b : Nat × Nat) : Prop :=
  b.1 ≤ W ∧ b.1 ≤ i ∧ b.2 ≤ b.1 ∧ b.2 ≤ M ∧
    (0 < b.2 → i + b.2 < data.length) ∧ (b.2 = 0 → b.1 = 0)

theorem bestStep_inv (data : List Nat) (W M i : Nat) (b : Nat × Nat) (j : Nat)
    (hb : BestInv data W M i b) : BestInv data W M i (bestStep data W M i b j) := by
  have h1 := matchLen_le_dist data M i j
  have h2 := matchLen_le_max data M i j
  unfold bestStep
  split
  · exact hb
  · next hskip =>
    split
    · next hacc =>
      have h3 := hacc.1
      unfold BestInv
      dsimp only
      exact ⟨by omega, by omega, by omega, by omega, fun _ => hacc.2, by omega⟩
    · exact hb

theorem bestSearch_inv (data : List Nat) (W M i : Nat) :
    BestInv data W M i (bestSearch data W M i) := by
  unfold bestSearch
  exact foldl_inv (BestInv data W M i) (bestStep data W M i)
    (fun b j hb => bestStep_inv data W M i b j hb) _ (0, 0)
    ⟨Nat.zero_le W, Nat.zero_le i, le_refl 0, Nat.zero_le M,
      fun h => absurd h (by simp), fun _ => rfl⟩

/-- Every token the encoder emits satisfies the validity invariant. -/
theorem compressGo_valid (data : List Nat) (W M : Nat) :
    ∀ fuel i t, t ∈ compressGo data W M fuel i →
      (t.1 = 0 ↔ t.2.1 = 0) ∧ t.1 ≤ W ∧ t.2.1 ≤ M ∧ t.2.1 ≤ t.1 := by
  intro fuel
  induction fuel with
  | zero => intro i t ht; simp [compressGo] at ht
  | succ f ih =>
    intro i t ht
    unfold compressGo at ht
    simp only [] at ht
    split at ht
    · have hinv := bestSearch_inv data W M i
      unfold BestInv at hinv
      split at ht
      · next hpos =>
        rcases List.mem_cons.1 ht with h | h
        · subst h
          dsimp only
          omega
        · exact ih _ t h
      · rcases List.mem_cons.1 ht with h | h
        · subst h; simp
        · exact ih _ t h
    · simp at ht

/-- The packed word is below `2 ^ token_width` when every field fits. -/
theorem packed_lt (dw lw d l lit : Nat) (hd : d < 2 ^ dw) (hl : l < 2 ^ lw)
    (hlit : lit ≤ 255) :
    d * 2 ^ (lw + 8) + l * 2 ^ 8 + lit < 2 ^ (dw + lw + 8) := by
  have e1 : (2 : Nat) ^ (lw + 8) = 2 ^ lw * 256 := by rw [pow_add]; norm_num
  have e2 : (2 : Nat) ^ (dw + lw + 8) = 2 ^ dw * (2 ^ lw * 256) := by
    rw [show dw + lw + 8 = dw + (lw + 8) from by omega, pow_add, e1]
  have hb : l * 256 + lit < 2 ^ lw * 256 := by omega
  have hd1 : d + 1 ≤ 2 ^ dw := hd
  calc d * 2 ^ (lw + 8) + l * 2 ^ 8 + lit
      = d * (2 ^ lw * 256) + (l * 256 + lit) := by rw [e1]; norm_num; ring
    _ < d * (2 ^ lw * 256) + 2 ^ lw * 256 := by omega
    _ = (d + 1) * (2 ^ lw * 256) := by ring
    _ ≤ 2 ^ dw * (2 ^ lw * 256) := Nat.mul_le_mul_right _ hd1
    _ = 2 ^ (dw + lw + 8) := e2.symm

/-! ## Claim theorems -/

/-- C1 (code bug): the round-trip property fails.  On `data = b"ABABX"`
with `window_size = 2`, `max_length = 15` the encoder emits
`[(0,0,65),(0,0,66),(2,2,88)]`, and the decoder's mid-copy-loop history
truncation shifts the fixed read index `start + k`, so the decode returns
`b"ABAAX"`, not `data`. -/
theorem c1_roundtrip_failure :
    decompress_stream (compress [65, 66, 65, 66, 88] 2 15) 2 =
      .ok [65, 66, 65, 65, 88] ∧
    [65, 66, 65, 65, 88] ≠ [65, 66, 65, 66, 88] := by
  exact ⟨rfl, by decide⟩

/-- C2 (counterexample): on `data = b"ABACAD"` at position 4 the candidates
`j = 0` (distance 4) and `j = 2` (distance 2) both have acceptable match
length 1, yet the encoder emits the token with distance 4 — the largest
distance, not the smallest as the claim states. -/
theorem c2_counterexample :
    matchLen [65, 66, 65, 67, 65, 68] 15 4 0 = 1 ∧
    matchLen [65, 66, 65, 67, 65, 68] 15 4 2 = 1 ∧
    compress [65, 66, 65, 67, 65, 68] 16 15 =
      [(0, 0, 65), (0, 0, 66), (2, 1, 67), (4, 1, 68)] ∧
    (4, 1, 68) ∈ compress [65, 66, 65, 67, 65, 68] 16 15 ∧
    (2, 1, 68) ∉ compress [65, 66, 65, 67, 65, 68] 16 15 := by
  refine ⟨rfl, rfl, rfl, by decide, by decide⟩

/-- C7: every token of `compress data W M` satisfies
`distance = 0 ↔ length = 0`, `distance ≤ window_size` and
`length ≤ max_length`, and compressing the empty sequence yields the empty
token sequence. -/
theorem c7_encoder_token_validity (data : List Nat) (W M : Nat)
    (hW : 1 ≤ W) (hM : 1 ≤ M) :
    (∀ d l lit, (d, l, lit) ∈ compress data W M →
      ((d = 0 ↔ l = 0) ∧ d ≤ W ∧ l ≤ M)) ∧
    compress [] W M = [] := by
  refine ⟨fun d l lit hmem => ?_, rfl⟩
  have h := compressGo_valid data W M data.length 0 (d, l, lit) hmem
  dsimp only at h
  exact ⟨h.1, h.2.1, h.2.2.1⟩

/-- Witness for C7 at `data = [65]`, `window_size = max_length = 1`. -/
theorem c7_witness :
    (∀ d l lit, (d, l, lit) ∈ compress [65] 1 1 →
      ((d = 0 ↔ l = 0) ∧ d ≤ 1 ∧ l ≤ 1)) ∧
    compress [] 1 1 = [] :=
  c7_encoder_token_validity [65] 1 1 (by decide) (by decide)

/-- C8: with `token_w = dist_width + len_width + 8` and in-range fields, the
packer succeeds and returns exactly
`(distance <<< (len_width + 8)) ||| (length <<< 8) ||| literal` (the mask
to `token_width` bits is the identity there), which equals the place-value
sum of the three fields. -/
theorem c8_pack_bit_layout (dw lw d l lit : Nat)
    (hd : d < 2 ^ dw) (hl : l < 2 ^ lw) (hlit : lit ≤ 255) :
    pack_token_word dw lw (dw + lw + 8) d l lit =
      .ok ((d <<< (lw + 8) ||| l <<< 8) ||| lit) ∧
    (d <<< (lw + 8) ||| l <<< 8) ||| lit =
      d * 2 ^ (lw + 8) + l * 2 ^ 8 + lit := by
  have s1 : d <<< (lw + 8) = 2 ^ (lw + 8) * d := by rw [Nat.shiftLeft_eq]; ring
  have s2 : l <<< 8 = l * 2 ^ 8 := Nat.shiftLeft_eq l 8
  have hlt1 : l * 2 ^ 8 < 2 ^ (lw + 8) := by rw [pow_add]; omega
  have hform : (d <<< (lw + 8) ||| l <<< 8) ||| lit =
      d * 2 ^ (lw + 8) + l * 2 ^ 8 + lit := by
    rw [s1, s2, ← Nat.mul_add_lt_is_or hlt1 d]
    rw [show 2 ^ (lw + 8) * d + l * 2 ^ 8 = 2 ^ 8 * (2 ^ lw * d + l) from by
      rw [pow_add]; ring]
    rw [← Nat.mul_add_lt_is_or (show lit < 2 ^ 8 from by omega) (2 ^ lw * d + l)]
    rw [pow_add]; ring
  refine ⟨?_, hform⟩
  unfold pack_token_word
  rw [if_neg (by rw [Nat.one_shiftLeft]; omega),
    if_neg (by rw [Nat.one_shiftLeft]; omega), if_neg (by omega)]
  rw [Nat.one_shiftLeft, Nat.and_pow_two_sub_one_eq_mod, hform,
    Nat.mod_eq_of_lt (packed_lt dw lw d l lit hd hl hlit)]

/-- Witness for C8: concrete scenario 5, `pack(1, 2, 0x41)` with 4-bit
fields gives `0x1241`. -/
theorem c8_witness : pack_token_word 4 4 16 1 2 65 = Except.ok 0x1241 := by
  have h := (c8_pack_bit_layout 4 4 1 2 65 (by decide) (by decide) (by decide)).1
  rw [show (((1 : Nat) <<< (4 + 8) ||| 2 <<< 8) ||| 65) = 0x1241 from by decide] at h
  exact h

/-- C9: the packer fails exactly when some field is out of range
(`distance ≥ 2 ^ dist_width`, `length ≥ 2 ^ len_width`, or
`literal > 255`; `literal < 0` cannot arise over `Nat`), and succeeds
exactly when all fields are in range. -/
theorem c9_pack_overflow_iff (dw lw tw d l lit : Nat) :
    ((∃ e, pack_token_word dw lw tw d l lit = .error e) ↔
      (2 ^ dw ≤ d ∨ 2 ^ lw ≤ l ∨ 255 < lit)) ∧
    ((∃ w, pack_token_word dw lw tw d l lit = .ok w) ↔
      (d < 2 ^ dw ∧ l < 2 ^ lw ∧ lit ≤ 255)) := by
  unfold pack_token_word
  rw [Nat.one_shiftLeft, Nat.one_shiftLeft]
  split_ifs with h1 h2 h3
  · exact ⟨iff_of_true ⟨_, rfl⟩ (Or.inl h1), iff_of_false (by simp) (by omega)⟩
  · exact ⟨iff_of_true ⟨_, rfl⟩ (Or.inr (Or.inl h2)),
      iff_of_false (by simp) (by omega)⟩
  · exact ⟨iff_of_true ⟨_, rfl⟩ (Or.inr (Or.inr h3)),
      iff_of_false (by simp) (by omega)⟩
  · exact ⟨iff_of_false (by simp) (by omega), iff_of_true ⟨_, rfl⟩ (by omega)⟩

/-! ## Decoder shape lemmas -/

theorem trunc_len_le (W : Nat) (s : List Nat) : (trunc W s).length ≤ W ∨ trunc W s = s := by
  unfold trunc
  split
  · left; simp; omega
  · right; rfl

theorem trunc_len_le_of_le {W : Nat} {s : List Nat} (h : s.length ≤ W + 1) :
    (trunc W s).length ≤ W := by
  rw [trunc_length]; omega

/-- The copy loop only ever appends to the output, and keeps the history
within the window. -/
theorem copyLoop_shape (W start : Nat) :
    ∀ rem k out hist r, copyLoop W start rem k out hist = .ok r →
      (∃ s, r.1 = out ++ s) ∧ (hist.length ≤ W → r.2.length ≤ W) := by
  intro rem
  induction rem with
  | zero =>
    intro k out hist r h
    simp only [copyLoop] at h
    injection h with h
    subst h
    exact ⟨⟨[], by simp⟩, fun hh => hh⟩
  | succ rem ih =>
    intro k out hist r h
    unfold copyLoop at h
    split at h
    · exact absurd h (by simp)
    · next b heq =>
      obtain ⟨⟨s, hs⟩, hlen⟩ := ih (k + 1) (out ++ [b]) (trunc W (hist ++ [b])) r h
      refine ⟨⟨b :: s, by rw [hs]; simp⟩, fun hh => hlen ?_⟩
      exact trunc_len_le_of_le (by simp; omega)

/-- A successful token step only appends to the output and leaves the
history within the window. -/
theorem decodeToken_shape (W : Nat) (t : Token) (out hist : List Nat)
    (r : List Nat × List Nat) (h : decodeToken W t out hist = .ok r) :
    (∃ s, r.1 = out ++ s) ∧ r.2.length ≤ W := by
  obtain ⟨d, l, lit⟩ := t
  unfold decodeToken at h
  dsimp only at h
  split at h
  · injection h with h
    subst h
    exact ⟨⟨[lit], rfl⟩, by rw [trunc_length]; omega⟩
  · split at h
    · exact absurd h (by simp)
    · split at h
      · exact absurd h (by simp)
      · split at h
        · exact absurd h (by simp)
        · next out2 hist2 hcl =>
          injection h with h
          subst h
          obtain ⟨⟨s, hs⟩, _⟩ := copyLoop_shape W (hist.length - d) l 0 out hist
            (out2, hist2) hcl
          refine ⟨⟨s ++ [lit], by dsimp only; dsimp only at hs; rw [hs]; simp⟩,
            by rw [trunc_length]; omega⟩

/-- A token with positive length that decodes successfully has its distance
within the available history (it passed the source line 68 check). -/
theorem decodeToken_dist_le (W : Nat) (d l lit : Nat) (out hist : List Nat)
    (r : List Nat × List Nat) (h : decodeToken W (d, l, lit) out hist = .ok r)
    (hl : 0 < l) : d ≤ hist.length := by
  unfold decodeToken at h
  dsimp only at h
  split at h
  · omega
  · split at h
    · exact absurd h (by simp)
    · split at h
      · exact absurd h (by simp)
      · next hfar => omega

/-- The token loop only appends to the output and keeps the history within
the window. -/
theorem runTokens_shape (W : Nat) :
    ∀ ts out hist r, hist.length ≤ W → runTokens W ts (out, hist) = .ok r →
      (∃ s, r.1 = out ++ s) ∧ r.2.length ≤ W := by
  intro ts
  induction ts with
  | nil =>
    intro out hist r hh h
    simp only [runTokens] at h
    injection h with h
    subst h
    exact ⟨⟨[], by simp⟩, hh⟩
  | cons t ts ih =>
    intro out hist r hh h
    unfold runTokens at h
    split at h
    · exact absurd h (by simp)
    · next s hdec =>
      obtain ⟨⟨s1, hs1⟩, hlen1⟩ := decodeToken_shape W t out hist s hdec
      obtain ⟨⟨s2, hs2⟩, hlen2⟩ := ih s.1 s.2 r hlen1 (by rw [Prod.mk.eta]; exact h)
      exact ⟨⟨s1 ++ s2, by rw [hs2, hs1]; simp⟩, hlen2⟩

/-- Successful full runs validate the distance of every positive-length
token against a history that never exceeds the window. -/
theorem runTokens_dist_le (W : Nat) :
    ∀ ts out hist r, hist.length ≤ W → runTokens W ts (out, hist) = .ok r →
      ∀ d l lit, (d, l, lit) ∈ ts → 0 < l → d ≤ W := by
  intro ts
  induction ts with
  | nil => intro out hist r hh h d l lit hm; simp at hm
  | cons t ts ih =>
    intro out hist r hh h d l lit hm hl
    unfold runTokens at h
    split at h
    · exact absurd h (by simp)
    · next s hdec =>
      rcases List.mem_cons.1 hm with hm | hm
      · subst hm
        exact le_trans (decodeToken_dist_le W d l lit out hist s hdec hl) hh
      · obtain ⟨_, hlen1⟩ := decodeToken_shape W t out hist s hdec
        exact ih s.1 s.2 r hlen1 (by rw [Prod.mk.eta]; exact h) d l lit hm hl

/-- C6: across any successful run of the decoder loop started with a
history within the window, the final history still fits the window and the
output has only been appended to (never truncated); likewise each copy
loop only appends to the output and preserves the history bound at every
step. -/
theorem c6_history_bound_output_monotone (W : Nat) :
    (∀ ts out hist r, hist.length ≤ W → runTokens W ts (out, hist) = .ok r →
      r.2.length ≤ W ∧ ∃ s, r.1 = out ++ s) ∧
    (∀ start rem k out hist r, copyLoop W start rem k out hist = .ok r →
      (hist.length ≤ W → r.2.length ≤ W) ∧ ∃ s, r.1 = out ++ s) := by
  constructor
  · intro ts out hist r hh h
    obtain ⟨ha, hb⟩ := runTokens_shape W ts out hist r hh h
    exact ⟨hb, ha⟩
  · intro start rem k out hist r h
    obtain ⟨ha, hb⟩ := copyLoop_shape W start rem k out hist r h
    exact ⟨hb, ha⟩

/-- Witness for C6 on a concrete three-literal run with `window_size = 2`. -/
theorem c6_witness :
    (([] : List Nat).length ≤ 2) ∧
    (([66, 67] : List Nat).length ≤ 2 ∧ ∃ s, [65, 66, 67] = ([] : List Nat) ++ s) :=
  ⟨by decide, (c6_history_bound_output_monotone 2).1
    [(0, 0, 65), (0, 0, 66), (0, 0, 67)] [] [] ([65, 66, 67], [66, 67])
    (by decide) rfl⟩

/-- C3 (amended): a successful decode validates every reached
positive-length token's distance against the window (`d ≤ window_size`,
because the history never exceeds the window); length is never validated
and zero-length tokens are never distance-checked — see
`c3_counterexample`. -/
theorem c3_decoder_validation (ts : List Token) (W : Nat) (out : List Nat)
    (h : decompress_stream ts W = .ok out) :
    ∀ d l lit, (d, l, lit) ∈ ts → 0 < l → d ≤ W := by
  unfold decompress_stream at h
  split at h
  · exact absurd h (by simp)
  · next o2 h2 hrun =>
    exact fun d l lit hm hl =>
      runTokens_dist_le W ts [] [] (o2, h2) (by simp) hrun d l lit hm hl

/-- C3 (counterexample): a zero-length token with `distance = 999 > 2 =
window_size` decodes silently, and a token of length `2`, exceeding a
configured `max_length = 1`, also decodes silently (the decoder receives
no `max_length` at all). -/
theorem c3_counterexample :
    decompress_stream [(999, 0, 65)] 2 = .ok [65] ∧
    decompress_stream [(0, 0, 65), (0, 0, 66), (2, 2, 67)] 2 =
      .ok [65, 66, 65, 65, 67] := ⟨rfl, rfl⟩

/-- Witness for C3 on a concrete one-literal decode. -/
theorem c3_witness :
    decompress_stream [(0, 0, 7)] 3 = .ok [7] ∧
    (∀ d l lit, (d, l, lit) ∈ ([(0, 0, 7)] : List Token) → 0 < l → d ≤ 3) :=
  ⟨rfl, c3_decoder_validation [(0, 0, 7)] 3 [7] rfl⟩

/-! ## Characterization of the candidate scan (tie-breaking) -/

/-- On in-window candidates the skip guard is inert and the accept test
reduces to a strict comparison with the candidate's effective value. -/
theorem bestStep_eq (data : List Nat) (W M i j : Nat) (b : Nat × Nat)
    (h1 : i - W ≤ j) (h2 : j < i) :
    bestStep data W M i b j =
      if b.2 < accLen data M i j then (i - j, accLen data M i j) else b := by
  unfold bestStep accLen
  rw [if_neg (show ¬(i - j = 0 ∨ W < i - j) from by omega)]
  by_cases hacc : i + matchLen data M i j < data.length
  · rw [if_pos hacc]
    by_cases hbl : b.2 < matchLen data M i j
    · rw [if_pos ⟨hbl, hacc⟩, if_pos hbl]
    · rw [if_neg (fun hc => hbl hc.1), if_neg hbl]
  · rw [if_neg hacc, if_neg (fun hc => hacc hc.2), if_neg (by omega)]

/-- Characterization of the left fold of `bestStep` over an increasing list
of in-range candidates: either nothing beats the accumulator, or the result
is the *first* candidate attaining the (maximal) final value. -/
theorem scan_char (data : List Nat) (W M i : Nat) :
    ∀ (L : List Nat) (b : Nat × Nat),
      (∀ j ∈ L, i - W ≤ j ∧ j < i) → L.Pairwise (· < ·) →
      (L.foldl (bestStep data W M i) b = b ∧
        ∀ j ∈ L, accLen data M i j ≤ b.2) ∨
      (b.2 < (L.foldl (bestStep data W M i) b).2 ∧
        ∃ jw ∈ L, accLen data M i jw = (L.foldl (bestStep data W M i) b).2 ∧
          (L.foldl (bestStep data W M i) b).1 = i - jw ∧
          (∀ j ∈ L, j < jw →
            accLen data M i j < (L.foldl (bestStep data W M i) b).2) ∧
          (∀ j ∈ L, accLen data M i j ≤ (L.foldl (bestStep data W M i) b).2)) := by
  intro L
  induction L with
  | nil => intro b _ _; exact Or.inl ⟨rfl, by simp⟩
  | cons a L ih =>
    intro b hrange hpair
    have ha := hrange a (by simp)
    have hrange' : ∀ j ∈ L, i - W ≤ j ∧ j < i := fun j hj =>
      hrange j (List.mem_cons_of_mem a hj)
    have hgt : ∀ j ∈ L, a < j := fun j hj => (List.pairwise_cons.1 hpair).1 j hj
    have hpair' : L.Pairwise (· < ·) := (List.pairwise_cons.1 hpair).2
    have hstep : List.foldl (bestStep data W M i) b (a :: L) =
        List.foldl (bestStep data W M i)
          (if b.2 < accLen data M i a then (i - a, accLen data M i a) else b) L := by
      rw [List.foldl_cons, bestStep_eq data W M i a b ha.1 ha.2]
    by_cases hba : b.2 < accLen data M i a
    · rw [if_pos hba] at hstep
      rcases ih (i - a, accLen data M i a) hrange' hpair' with ⟨heq, hle⟩ | hr
      · refine Or.inr ⟨?_, a, by simp, ?_, ?_, ?_, ?_⟩
        · rw [hstep, heq]; exact hba
        · rw [hstep, heq]
        · rw [hstep, heq]
        · intro j hj hja
          rcases List.mem_cons.1 hj with rfl | hj
          · omega
          · exact absurd hja (by have := hgt j hj; omega)
        · intro j hj
          rcases List.mem_cons.1 hj with rfl | hj
          · rw [hstep, heq]
          · rw [hstep, heq]; exact hle j hj
      · obtain ⟨hlt, jw, hjw, hacc, hfst, hearlier, hall⟩ := hr
        rw [← hstep] at hlt hacc hfst hearlier hall
        refine Or.inr ⟨by dsimp only at hlt; omega,
          jw, List.mem_cons_of_mem a hjw, hacc, hfst, ?_, ?_⟩
        · intro j hj hja
          rcases List.mem_cons.1 hj with rfl | hj
          · dsimp only at hlt; omega
          · exact hearlier j hj hja
        · intro j hj
          rcases List.mem_cons.1 hj with rfl | hj
          · dsimp only at hlt; omega
          · exact hall j hj
    · rw [if_neg hba] at hstep
      rcases ih b hrange' hpair' with ⟨heq, hle⟩ | hr
      · refine Or.inl ⟨by rw [hstep, heq], ?_⟩
        intro j hj
        rcases List.mem_cons.1 hj with rfl | hj
        · omega
        · exact hle j hj
      · obtain ⟨hlt, jw, hjw, hacc, hfst, hearlier, hall⟩ := hr
        rw [← hstep] at hlt hacc hfst hearlier hall
        refine Or.inr ⟨hlt, jw, List.mem_cons_of_mem a hjw, hacc, hfst, ?_, ?_⟩
        · intro j hj hja
          rcases List.mem_cons.1 hj with rfl | hj
          · omega
          · exact hearlier j hj hja
        · intro j hj
          rcases List.mem_cons.1 hj with rfl | hj
          · omega
          · exact hall j hj

/-- C2 (amended): when the scan finds a positive best length, the emitted
candidate is the *first* one attaining it in oldest-to-newest order; since
`dist = i - j` decreases as `j` grows, on equal maximal match lengths the
encoder emits the candidate with the **largest** distance (the oldest one),
not the smallest. -/
theorem c2_tie_break_largest_distance (data : List Nat) (W M i : Nat)
    (hpos : 0 < (bestSearch data W M i).2) :
    ∃ j, (i - W ≤ j ∧ j < i) ∧
      accLen data M i j = (bestSearch data W M i).2 ∧
      (bestSearch data W M i).1 = i - j ∧
      (∀ j2, i - W ≤ j2 → j2 < j →
        accLen data M i j2 < (bestSearch data W M i).2) ∧
      (∀ j2, i - W ≤ j2 → j2 < i →
        accLen data M i j2 ≤ (bestSearch data W M i).2) ∧
      (∀ j2, i - W ≤ j2 → j2 < i →
        accLen data M i j2 = (bestSearch data W M i).2 → i - j2 ≤ i - j) := by
  have hmem : ∀ j, j ∈ List.range' (i - W) (i - (i - W)) ↔ (i - W ≤ j ∧ j < i) := by
    intro j
    rw [List.mem_range'_1]
    omega
  have hchar := scan_char data W M i (List.range' (i - W) (i - (i - W))) (0, 0)
    (fun j hj => (hmem j).1 hj) (List.pairwise_lt_range' _ _)
  rcases hchar with ⟨heq, _⟩ | hr
  · rw [show List.foldl (bestStep data W M i) (0, 0)
        (List.range' (i - W) (i - (i - W))) = bestSearch data W M i from rfl] at heq
    rw [heq] at hpos
    exact absurd hpos (by simp)
  · obtain ⟨_, jw, hjw, hacc, hfst, hearlier, hall⟩ := hr
    rw [show List.foldl (bestStep data W M i) (0, 0)
        (List.range' (i - W) (i - (i - W))) = bestSearch data W M i from rfl]
      at hacc hfst hearlier hall
    refine ⟨jw, (hmem jw).1 hjw, hacc, hfst, ?_, ?_, ?_⟩
    · intro j2 hj2 hj2w
      have hj2i : j2 < i := by have := ((hmem jw).1 hjw).2; omega
      exact hearlier j2 ((hmem j2).2 ⟨hj2, hj2i⟩) hj2w
    · intro j2 hj2 hj2i
      exact hall j2 ((hmem j2).2 ⟨hj2, hj2i⟩)
    · intro j2 hj2 hj2i hacc2
      by_cases hcmp : j2 < jw
      · have := hearlier j2 ((hmem j2).2 ⟨hj2, hj2i⟩) hcmp
        omega
      · omega

/-- Witness for C2 (amended) at the `b"ABACAD"` tie, position 4. -/
theorem c2_witness :
    0 < (bestSearch [65, 66, 65, 67, 65, 68] 16 15 4).2 ∧
    ∃ j, (4 - 16 ≤ j ∧ j < 4) ∧
      accLen [65, 66, 65, 67, 65, 68] 15 4 j =
        (bestSearch [65, 66, 65, 67, 65, 68] 16 15 4).2 ∧
      (bestSearch [65, 66, 65, 67, 65, 68] 16 15 4).1 = 4 - j ∧
      (∀ j2, 4 - 16 ≤ j2 → j2 < j →
        accLen [65, 66, 65, 67, 65, 68] 15 4 j2 <
          (bestSearch [65, 66, 65, 67, 65, 68] 16 15 4).2) ∧
      (∀ j2, 4 - 16 ≤ j2 → j2 < 4 →
        accLen [65, 66, 65, 67, 65, 68] 15 4 j2 ≤
          (bestSearch [65, 66, 65, 67, 65, 68] 16 15 4).2) ∧
      (∀ j2, 4 - 16 ≤ j2 → j2 < 4 →
        accLen [65, 66, 65, 67, 65, 68] 15 4 j2 =
          (bestSearch [65, 66, 65, 67, 65, 68] 16 15 4).2 → 4 - j2 ≤ 4 - j) :=
  ⟨by decide, c2_tie_break_largest_distance [65, 66, 65, 67, 65, 68] 16 15 4
    (by decide)⟩

/-! ## InvalidBackReference characterization (decoder errors) -/

/-- The copy loop can only fail with an out-of-range read. -/
theorem copyLoop_error (W start : Nat) :
    ∀ rem k out hist e, copyLoop W start rem k out hist = .error e →
      e = .histOob := by
  intro rem
  induction rem with
  | zero => intro k out hist e h; simp [copyLoop] at h
  | succ rem ih =>
    intro k out hist e h
    unfold copyLoop at h
    split at h
    · injection h with h; exact h.symm
    · exact ih _ _ _ _ h

/-- A token step fails with an `InvalidBackReference` error exactly when
the token is bad for the current history. -/
theorem decodeToken_ibr (W : Nat) (t : Token) (out hist : List Nat) :
    (∃ e, decodeToken W t out hist = .error e ∧ isIBR e) ↔ badTok t hist := by
  unfold decodeToken badTok
  split
  · next hl0 =>
    constructor
    · rintro ⟨e, he, _⟩; exact absurd he (by simp)
    · rintro ⟨hpos, _⟩; omega
  · next hl0 =>
    split
    · next hd0 =>
      constructor
      · intro _; exact ⟨by omega, Or.inl hd0⟩
      · intro _; exact ⟨.distZero, rfl, Or.inl rfl⟩
    · next hd0 =>
      split
      · next hfar =>
        constructor
        · intro _; exact ⟨by omega, Or.inr hfar⟩
        · intro _; exact ⟨.distTooFar, rfl, Or.inr rfl⟩
      · next hfar =>
        constructor
        · rintro ⟨e, he, hibr⟩
          split at he
          · next e2 hcl =>
            injection he with he
            have he3 := copyLoop_error W (hist.length - t.1) t.2.1 0 out hist e2 hcl
            subst he3
            rcases hibr with h | h <;> rw [← he] at h <;> exact absurd h (by simp)
          · exact absurd he (by simp)
        · rintro ⟨hpos, hd | hfar2⟩
          · exact absurd hd hd0
          · omega

/-- C4's "reaches a bad token" condition: some prefix of the token list
decodes cleanly and the next token is bad for the history it meets. -/
def reachesBad (W : Nat) (ts : List Token) (s : List Nat × List Nat) : Prop :=
  ∃ k s2, k < ts.length ∧ runTokens W (ts.take k) s = .ok s2 ∧
    badTok (ts.getD k (0, 0, 0)) s2.2

/-- The token loop raises an `InvalidBackReference` error iff it reaches a
bad token. -/
theorem runTokens_ibr_iff (W : Nat) :
    ∀ ts out hist,
      (∃ e, runTokens W ts (out, hist) = .error e ∧ isIBR e) ↔
        reachesBad W ts (out, hist) := by
  intro ts
  induction ts with
  | nil =>
    intro out hist
    constructor
    · rintro ⟨e, he, _⟩; exact absurd he (by simp [runTokens])
    · rintro ⟨k, s2, hk, _, _⟩; simp at hk
  | cons t ts ih =>
    intro out hist
    cases hdec : decodeToken W t out hist with
    | error e =>
      have hrun : runTokens W (t :: ts) (out, hist) = .error e := by
        simp only [runTokens]; rw [hdec]
      constructor
      · rintro ⟨e2, he2, hibr⟩
        rw [hrun] at he2
        injection he2 with he2
        have hbad := (decodeToken_ibr W t out hist).1
          ⟨e, hdec, by rw [he2]; exact hibr⟩
        exact ⟨0, (out, hist), by simp, rfl, hbad⟩
      · rintro ⟨k, s2, hk, hpre, hbad⟩
        cases k with
        | zero =>
          simp only [List.take_zero, runTokens] at hpre
          injection hpre with hpre
          subst hpre
          obtain ⟨e2, he2, hibr⟩ := (decodeToken_ibr W t out hist).2 hbad
          rw [hdec] at he2
          injection he2 with he2
          exact ⟨e, hrun, by rw [he2]; exact hibr⟩
        | succ k =>
          rw [show (t :: ts).take (k + 1) = t :: ts.take k from rfl] at hpre
          unfold runTokens at hpre
          rw [hdec] at hpre
          exact absurd hpre (by simp)
    | ok s2 =>
      have hrun : runTokens W (t :: ts) (out, hist) = runTokens W ts s2 := by
        simp only [runTokens]; rw [hdec]
      obtain ⟨o2, h2⟩ := s2
      constructor
      · intro hL
        rw [hrun] at hL
        obtain ⟨k, s3, hk, hpre, hbad⟩ := (ih o2 h2).1 hL
        refine ⟨k + 1, s3, by simpa using hk, ?_, hbad⟩
        rw [show (t :: ts).take (k + 1) = t :: ts.take k from rfl]
        unfold runTokens
        rw [hdec]
        exact hpre
      · rintro ⟨k, s3, hk, hpre, hbad⟩
        cases k with
        | zero =>
          simp only [List.take_zero, runTokens] at hpre
          injection hpre with hpre
          subst hpre
          obtain ⟨e2, he2, _⟩ := (decodeToken_ibr W t out hist).2 hbad
          rw [hdec] at he2
          exact absurd he2 (by simp)
        | succ k =>
          rw [show (t :: ts).take (k + 1) = t :: ts.take k from rfl] at hpre
          unfold runTokens at hpre
          rw [hdec] at hpre
          rw [hrun]
          exact (ih o2 h2).2 ⟨k, s3, by simpa using hk, hpre, hbad⟩

/-- C4 (amended): `decompress_stream` fails with an `InvalidBackReference`
error iff, decoding the tokens in order, some cleanly-decoded prefix is
followed by a token with `length > 0` and `distance = 0` or `distance`
greater than the history available at that point (so it aborts at the
first such token); the concrete scenario — token `(3, 2, 65)` against a
history of length 2 — raises `distTooFar`.  Token sequences with no such
token need not return normally: they can instead fail with an
out-of-range history read or a byte-range failure, see
`c4_counterexample`. -/
theorem c4_ibr_iff :
    (∀ W ts, (∃ e, decompress_stream ts W = .error e ∧ isIBR e) ↔
      reachesBad W ts ([], [])) ∧
    decompress_stream [(0, 0, 1), (0, 0, 2), (3, 2, 65)] 16 =
      .error .distTooFar := by
  refine ⟨fun W ts => ?_, rfl⟩
  rw [← runTokens_ibr_iff W ts [] []]
  unfold decompress_stream
  cases hrun : runTokens W ts ([], []) with
  | error e =>
    constructor
    · rintro ⟨e2, he2, hibr⟩
      exact ⟨e2, by simpa using he2, hibr⟩
    · rintro ⟨e2, he2, hibr⟩
      exact ⟨e2, by simpa using he2, hibr⟩
  | ok s =>
    obtain ⟨o, h⟩ := s
    constructor
    · rintro ⟨e2, he2, hibr⟩
      dsimp only at he2
      split at he2
      · exact absurd he2 (by simp)
      · injection he2 with he2
        subst he2
        exact absurd hibr (by simp [isIBR])
    · rintro ⟨e2, he2, _⟩
      exact absurd he2 (by simp)

/-- C4 (counterexample): the token list
`[(0,0,65), (0,0,66), (1,3,67)]` with `window_size = 2` contains no token
that is bad when reached (the back-reference `(1,3,67)` meets a length-2
history and `1 ≤ 2`), yet decoding does not return normally: the copy
loop's third read falls outside the truncated history and raises an
`IndexError`, not an `InvalidBackReference`. -/
theorem c4_counterexample :
    decompress_stream [(0, 0, 65), (0, 0, 66), (1, 3, 67)] 2 =
      .error .histOob ∧
    ¬ isIBR .histOob ∧
    ¬ badTok (0, 0, 65) [] ∧
    ¬ badTok (0, 0, 66) [65] ∧
    ¬ badTok (1, 3, 67) [65, 66] ∧
    runTokens 2 [(0, 0, 65), (0, 0, 66)] ([], []) = .ok ([65, 66], [65, 66]) :=
  ⟨rfl, by decide, by decide, by decide, by decide, rfl⟩

/-! ## The untruncated growing-history read rule (spec side) -/

theorem selfExtendGo_length (d : Nat) :
    ∀ (l : Nat) (s : List Nat), (selfExtendGo s d l).length = s.length + l := by
  intro l
  induction l with
  | zero => intro s; rfl
  | succ l ih =>
    intro s
    rw [show selfExtendGo s d (l + 1) =
        selfExtendGo (s ++ [s.getD (s.length - d) 0]) d l from rfl, ih]
    simp
    omega

/-- Peeling the *last* step of the untruncated read rule. -/
theorem selfExtendGo_succ (d : Nat) :
    ∀ (l : Nat) (s : List Nat), selfExtendGo s d (l + 1) =
      selfExtendGo s d l ++
        [(selfExtendGo s d l).getD ((selfExtendGo s d l).length - d) 0] := by
  intro l
  induction l with
  | zero => intro s; rfl
  | succ l ih =>
    intro s
    rw [show selfExtendGo s d (l + 1 + 1) =
        selfExtendGo (s ++ [s.getD (s.length - d) 0]) d (l + 1) from rfl, ih]
    rfl

/-- Positions already produced are stable under further extension. -/
theorem selfExtendGo_stable (s : List Nat) (d : Nat) :
    ∀ (l m idx : Nat), idx < s.length + l →
      (selfExtendGo s d (l + m))[idx]? = (selfExtendGo s d l)[idx]? := by
  intro l m
  induction m with
  | zero => intro idx _; rfl
  | succ m ih =>
    intro idx hidx
    rw [show l + (m + 1) = (l + m) + 1 from rfl, selfExtendGo_succ]
    rw [List.getElem?_append,
      if_pos (by rw [selfExtendGo_length]; omega)]
    exact ih idx hidx

/-- The copy loop, run on an untruncated growing history, computes exactly
the spec's self-extension rule (each byte read `d` back from the end of
the growing stream), as long as the history stays within the window until
the last read. -/
theorem copyLoop_selfExtend (W d : Nat) (s0 : List Nat) (hd : 1 ≤ d)
    (hdh : d ≤ s0.length) :
    ∀ rem k out, s0.length + (k + rem) ≤ W + 1 →
      ∃ h2, copyLoop W (s0.length - d) rem k out (selfExtendGo s0 d k) =
        .ok (out ++ (selfExtendGo s0 d (k + rem)).drop (s0.length + k), h2) := by
  intro rem
  induction rem with
  | zero =>
    intro k out _
    refine ⟨selfExtendGo s0 d k, ?_⟩
    simp only [copyLoop]
    rw [List.drop_eq_nil_of_le (by rw [selfExtendGo_length]; omega)]
    simp
  | succ rem ih =>
    intro k out hW
    have hlen := selfExtendGo_length d k s0
    have hidx : s0.length - d + k < (selfExtendGo s0 d k).length := by omega
    have hidx2 : s0.length - d + k = (selfExtendGo s0 d k).length - d := by omega
    have hb : (selfExtendGo s0 d k)[s0.length - d + k]? =
        some ((selfExtendGo s0 d k).getD
          ((selfExtendGo s0 d k).length - d) 0) := by
      rw [hidx2, List.getD_eq_getElem?_getD,
        List.getElem?_eq_getElem (by omega)]
      simp
    unfold copyLoop
    rw [hb]
    dsimp only
    rw [show selfExtendGo s0 d k ++
        [(selfExtendGo s0 d k).getD ((selfExtendGo s0 d k).length - d) 0] =
        selfExtendGo s0 d (k + 1) from (selfExtendGo_succ d k s0).symm]
    have hbyte : (selfExtendGo s0 d (k + (rem + 1)))[s0.length + k]? =
        some ((selfExtendGo s0 d k).getD
          ((selfExtendGo s0 d k).length - d) 0) := by
      rw [show k + (rem + 1) = (k + 1) + rem from by omega,
        selfExtendGo_stable s0 d (k + 1) rem (s0.length + k)
          (by omega), selfExtendGo_succ]
      rw [show s0.length + k = (selfExtendGo s0 d k).length from by omega]
      exact List.getElem?_concat_length _ _
    have hdrop : (selfExtendGo s0 d (k + (rem + 1))).drop (s0.length + k) =
        (selfExtendGo s0 d k).getD ((selfExtendGo s0 d k).length - d) 0 ::
          (selfExtendGo s0 d (k + (rem + 1))).drop (s0.length + k + 1) := by
      have hlt : s0.length + k < (selfExtendGo s0 d (k + (rem + 1))).length := by
        rw [selfExtendGo_length]; omega
      have h1 := List.getElem?_eq_getElem hlt
      rw [h1] at hbyte
      injection hbyte with hb2
      rw [List.drop_eq_getElem_cons hlt, hb2]
    cases rem with
    | zero =>
      refine ⟨trunc W (selfExtendGo s0 d (k + 1)), ?_⟩
      simp only [copyLoop]
      rw [hdrop, List.drop_eq_nil_of_le (by rw [selfExtendGo_length]; omega)]
    | succ rem2 =>
      have htr : trunc W (selfExtendGo s0 d (k + 1)) = selfExtendGo s0 d (k + 1) :=
        trunc_eq_of_le (by rw [selfExtendGo_length]; omega)
      rw [htr]
      obtain ⟨h2, hcl⟩ := ih (k + 1)
        (out ++ [(selfExtendGo s0 d k).getD ((selfExtendGo s0 d k).length - d) 0])
        (by omega)
      refine ⟨h2, ?_⟩
      rw [hcl]
      rw [show (k + 1) + (rem2 + 1) = k + (rem2 + 1 + 1) from by omega]
      rw [show s0.length + (k + 1) = s0.length + k + 1 from by omega]
      rw [hdrop]
      simp

/-- C5, general half (with the side condition the code needs): a
back-reference token whose copy never overflows the window before its last
read decodes to exactly the spec's self-extension of the history. -/
theorem decodeToken_selfExtend (W : Nat) (d l lit : Nat) (out hist : List Nat)
    (hd : 1 ≤ d) (hdh : d ≤ hist.length) (hWl : hist.length + l ≤ W + 1)
    (hl : 0 < l) :
    ∃ h2, decodeToken W (d, l, lit) out hist =
      .ok (out ++ (selfExtendGo hist d l).drop hist.length ++ [lit], h2) := by
  obtain ⟨h2, hcl⟩ := copyLoop_selfExtend W d hist hd hdh l 0 out (by omega)
  rw [show selfExtendGo hist d 0 = hist from rfl] at hcl
  rw [show (0 : Nat) + l = l from by omega] at hcl
  rw [show hist.length + 0 = hist.length from by omega] at hcl
  refine ⟨trunc W (h2 ++ [lit]), ?_⟩
  unfold decodeToken
  dsimp only
  rw [if_neg (by omega), if_neg (by omega), if_neg (by omega), hcl]

/-! ## Copy loop: success, failure, and constant histories -/

/-- The copy loop succeeds as long as the truncation cannot outrun the
fixed read index: `h0 + (k + rem) ≤ W + d`. -/
theorem copyLoop_ok (W d h0 : Nat) :
    ∀ rem k out hist, 1 ≤ d → d ≤ h0 → h0 ≤ W →
      hist.length = min (h0 + k) W →
      h0 + (k + rem) ≤ W + d →
      ∃ r, copyLoop W (h0 - d) rem k out hist = .ok r := by
  intro rem
  induction rem with
  | zero => intro k out hist _ _ _ _ _; exact ⟨(out, hist), rfl⟩
  | succ rem ih =>
    intro k out hist h1 h2 h3 hlen hWd
    have hidx : h0 - d + k < hist.length := by rw [hlen]; omega
    obtain ⟨b, hb⟩ : ∃ b, hist[h0 - d + k]? = some b :=
      ⟨_, List.getElem?_eq_getElem hidx⟩
    obtain ⟨r, hr⟩ := ih (k + 1) (out ++ [b]) (trunc W (hist ++ [b])) h1 h2 h3
      (by rw [trunc_length]; simp [hlen]; omega) (by omega)
    refine ⟨r, ?_⟩
    unfold copyLoop
    rw [hb]
    exact hr

/-- When the truncation does outrun the fixed read index
(`W + d < h0 + (k + rem)`), some read of the copy loop falls outside the
truncated history and the loop fails with an out-of-range read. -/
theorem copyLoop_fail (W d h0 : Nat) :
    ∀ rem k out hist, 1 ≤ d → d ≤ h0 → h0 ≤ W →
      hist.length = min (h0 + k) W →
      h0 + k ≤ W + d → W + d < h0 + (k + rem) →
      copyLoop W (h0 - d) rem k out hist = .error .histOob := by
  intro rem
  induction rem with
  | zero => intro k out hist _ _ _ _ hub hlb; omega
  | succ rem ih =>
    intro k out hist h1 h2 h3 hlen hub hlb
    by_cases hend : h0 + k = W + d
    · have hoob : hist.length ≤ h0 - d + k := by rw [hlen]; omega
      unfold copyLoop
      rw [List.getElem?_eq_none hoob]
    · have hidx : h0 - d + k < hist.length := by rw [hlen]; omega
      obtain ⟨b, hb⟩ : ∃ b, hist[h0 - d + k]? = some b :=
        ⟨_, List.getElem?_eq_getElem hidx⟩
      unfold copyLoop
      rw [hb]
      exact ih (k + 1) (out ++ [b]) (trunc W (hist ++ [b])) h1 h2 h3
        (by rw [trunc_length]; simp [hlen]; omega) (by omega) (by omega)

/-- On a constant history the copy loop copies that constant, tracking the
exact history length. -/
theorem copyLoop_const (W d h0 c : Nat) :
    ∀ rem k out hist, 1 ≤ d → d ≤ h0 → h0 ≤ W →
      hist.length = min (h0 + k) W → (∀ x ∈ hist, x = c) →
      h0 + (k + rem) ≤ W + d →
      ∃ h2, copyLoop W (h0 - d) rem k out hist =
        .ok (out ++ List.replicate rem c, h2) ∧
        h2.length = min (h0 + (k + rem)) W ∧ (∀ x ∈ h2, x = c) := by
  intro rem
  induction rem with
  | zero =>
    intro k out hist _ _ _ hlen hall _
    refine ⟨hist, by simp [copyLoop], by omega, hall⟩
  | succ rem ih =>
    intro k out hist h1 h2 h3 hlen hall hWd
    have hidx : h0 - d + k < hist.length := by rw [hlen]; omega
    obtain ⟨b, hb⟩ : ∃ b, hist[h0 - d + k]? = some b :=
      ⟨_, List.getElem?_eq_getElem hidx⟩
    have hbc : b = c := hall b (List.getElem?_mem hb)
    rw [hbc] at hb
    have hall2 : ∀ x ∈ trunc W (hist ++ [c]), x = c := by
      intro x hx
      rcases List.mem_append.1 (mem_trunc hx) with hx | hx
      · exact hall x hx
      · simpa using hx
    obtain ⟨h2', hcl, hlen', hall'⟩ := ih (k + 1) (out ++ [c])
      (trunc W (hist ++ [c])) h1 h2 h3
      (by rw [trunc_length]; simp [hlen]; omega) hall2 (by omega)
    refine ⟨h2', ?_, by rw [hlen']; congr 1; omega, hall'⟩
    unfold copyLoop
    rw [hb]
    dsimp only
    rw [hcl]
    rw [List.append_assoc]
    rw [show ([c] ++ List.replicate rem c : List Nat) = List.replicate (rem + 1) c from by
      simp [List.replicate_succ]]

/-- A valid-for-a-constant-history token decodes to `length + 1` copies of
the constant, preserving the exact history length and constancy. -/
theorem decodeToken_const (W c d l lit : Nat) (out hist : List Nat)
    (hld : l ≤ d) (hdh : d ≤ hist.length) (hhW : hist.length ≤ W)
    (hall : ∀ x ∈ hist, x = c) (hlit : lit = c) :
    ∃ h2, decodeToken W (d, l, lit) out hist =
      .ok (out ++ List.replicate (l + 1) c, h2) ∧
      h2.length = min (hist.length + (l + 1)) W ∧ ∀ x ∈ h2, x = c := by
  have halit : ∀ x ∈ trunc W (hist ++ [lit]), x = c := by
    intro x hx
    rcases List.mem_append.1 (mem_trunc hx) with hx | hx
    · exact hall x hx
    · simp at hx; omega
  by_cases hl0 : l = 0
  · subst hl0
    refine ⟨trunc W (hist ++ [lit]), ?_, ?_, halit⟩
    · unfold decodeToken
      dsimp only
      rw [if_pos rfl, hlit]
      rfl
    · rw [trunc_length]
      simp
  · obtain ⟨h2, hcl, hlen2, hall2⟩ := copyLoop_const W d hist.length c l 0 out
      hist (by omega) hdh hhW (by omega) hall (by omega)
    have halit2 : ∀ x ∈ trunc W (h2 ++ [lit]), x = c := by
      intro x hx
      rcases List.mem_append.1 (mem_trunc hx) with hx | hx
      · exact hall2 x hx
      · simp at hx; omega
    refine ⟨trunc W (h2 ++ [lit]), ?_, ?_, halit2⟩
    · unfold decodeToken
      dsimp only
      rw [if_neg hl0, if_neg (by omega), if_neg (by omega), hcl]
      dsimp only
      rw [hlit, List.append_assoc,
        show List.replicate l c ++ [c] = List.replicate (l + 1) c from
          (List.replicate_succ' l c).symm]
    · rw [trunc_length]
      simp [hlen2]
      omega

/-- Encoding a constant byte sequence and replaying the tokens reproduces
the constant sequence: every token's fields are encoder-valid, the
decoder's history is the window-bounded suffix of the output, and every
byte read or appended is the constant. -/
theorem runTokens_compressGo_const (c n W M : Nat) :
    ∀ fuel i out hist,
      n ≤ i + fuel →
      i ≤ out.length → hist.length = min out.length W →
      (∀ x ∈ hist, x = c) →
      ∃ h2, runTokens W (compressGo (List.replicate n c) W M fuel i)
        (out, hist) = .ok (out ++ List.replicate (n - i) c, h2) := by
  intro fuel
  induction fuel with
  | zero =>
    intro i out hist hfuel hio hlen hall
    refine ⟨hist, ?_⟩
    rw [show compressGo (List.replicate n c) W M 0 i = [] from rfl,
      show n - i = 0 from by omega]
    simp [runTokens]
  | succ fuel ih =>
    intro i out hist hfuel hio hlen hall
    have hun : compressGo (List.replicate n c) W M (fuel + 1) i =
        if i < (List.replicate n c).length then
          if 0 < (bestSearch (List.replicate n c) W M i).2 then
            ((bestSearch (List.replicate n c) W M i).1,
              (bestSearch (List.replicate n c) W M i).2,
              (List.replicate n c).getD
                (i + (bestSearch (List.replicate n c) W M i).2) 0) ::
              compressGo (List.replicate n c) W M fuel
                (i + (bestSearch (List.replicate n c) W M i).2 + 1)
          else (0, 0, (List.replicate n c).getD i 0) ::
            compressGo (List.replicate n c) W M fuel (i + 1)
        else [] := rfl
    by_cases hin : i < n
    · rw [hun, if_pos (by rw [List.length_replicate]; exact hin)]
      have hinv := bestSearch_inv (List.replicate n c) W M i
      unfold BestInv at hinv
      rw [List.length_replicate] at hinv
      by_cases hpos : 0 < (bestSearch (List.replicate n c) W M i).2
      · rw [if_pos hpos]
        have hlit : (List.replicate n c).getD
            (i + (bestSearch (List.replicate n c) W M i).2) 0 = c := by
          rw [List.getD_eq_getElem?_getD, List.getElem?_replicate,
            if_pos (hinv.2.2.2.2.1 hpos)]
          rfl
        rw [hlit]
        obtain ⟨h2, hdec, hlen2, hall2⟩ := decodeToken_const W c
          (bestSearch (List.replicate n c) W M i).1
          (bestSearch (List.replicate n c) W M i).2 c out hist
          hinv.2.2.1 (by omega) (by omega) hall rfl
        obtain ⟨h3, hih⟩ := ih
          (i + (bestSearch (List.replicate n c) W M i).2 + 1)
          (out ++ List.replicate
            ((bestSearch (List.replicate n c) W M i).2 + 1) c) h2
          (by omega)
          (by rw [List.length_append, List.length_replicate]; omega)
          (by simp only [List.length_append, List.length_replicate]; omega)
          hall2
        refine ⟨h3, ?_⟩
        simp only [runTokens]
        rw [hdec]
        dsimp only
        rw [hih]
        congr 1
        rw [List.append_assoc]
        congr 1
        rw [← List.replicate_add]
        have hlt := hinv.2.2.2.2.1 hpos
        rw [show (bestSearch (List.replicate n c) W M i).2 + 1 +
          (n - (i + (bestSearch (List.replicate n c) W M i).2 + 1)) = n - i from
          by omega]
      · rw [if_neg hpos]
        have hlit : (List.replicate n c).getD i 0 = c := by
          rw [List.getD_eq_getElem?_getD, List.getElem?_replicate, if_pos hin]
          rfl
        rw [hlit]
        obtain ⟨h2, hdec, hlen2, hall2⟩ := decodeToken_const W c 0 0 c out hist
          (by omega) (by omega) (by omega) hall rfl
        obtain ⟨h3, hih⟩ := ih (i + 1) (out ++ List.replicate 1 c) h2
          (by omega)
          (by rw [List.length_append, List.length_replicate]; omega)
          (by simp only [List.length_append, List.length_replicate]; omega)
          hall2
        refine ⟨h3, ?_⟩
        simp only [runTokens]
        rw [hdec]
        dsimp only
        rw [hih]
        congr 1
        rw [List.append_assoc]
        congr 1
        rw [← List.replicate_add]
        rw [show 1 + (n - (i + 1)) = n - i from by omega]
    · rw [hun, if_neg (by rw [List.length_replicate]; exact hin)]
      refine ⟨hist, ?_⟩
      rw [show n - i = 0 from by omega]
      simp [runTokens]

/-- C5 (amended): (i) a validated back-reference token whose copy stays
within the window until its last read (`hist.length + length ≤
window_size + 1`) decodes by the growing-history rule, so runs
self-extend even with `distance < length`; without that side condition
the mid-loop truncation breaks the rule (see `c5_counterexample`);
(ii) the concrete all-`A` run `b"AAAAAAAA"` round-trips for every
`window_size ≥ 4` and `max_length ≥ 1`, since all bytes are equal. -/
theorem c5_overlapping_copy (W M : Nat) (hW : 4 ≤ W) (hM : 1 ≤ M) :
    (∀ d l lit out hist, 1 ≤ d → d ≤ hist.length → d < l →
        hist.length + l ≤ W + 1 →
      ∃ h2, decodeToken W (d, l, lit) out hist =
        .ok (out ++ (selfExtendGo hist d l).drop hist.length ++ [lit], h2)) ∧
    decompress_stream (compress (List.replicate 8 65) W M) W =
      .ok (List.replicate 8 65) := by
  constructor
  · intro d l lit out hist h1 h2 h3 h4
    exact decodeToken_selfExtend W d l lit out hist h1 h2 h4 (by omega)
  · obtain ⟨h2, hrun⟩ := runTokens_compressGo_const 65 8 W M 8 0 [] []
      (by omega) (by omega) (by simp) (by simp)
    unfold decompress_stream
    rw [show compress (List.replicate 8 65) W M =
        compressGo (List.replicate 8 65) W M 8 0 from by
      unfold compress
      rw [List.length_replicate]]
    rw [hrun]
    dsimp only
    rw [if_pos (by decide)]
    simp

/-- C5 (counterexample): with `window_size = 4`, history `[65,66,67]` and
the overlapping token `(2, 3, 68)`, the decoder's mid-loop truncation
shifts the read index, so the output disagrees with the spec's
growing-history (self-extension) rule at the last copied byte. -/
theorem c5_counterexample :
    decompress_stream [(0, 0, 65), (0, 0, 66), (0, 0, 67), (2, 3, 68)] 4 =
      .ok [65, 66, 67, 66, 67, 67, 68] ∧
    selfExtendGo [65, 66, 67] 2 3 ++ [68] = [65, 66, 67, 66, 67, 66, 68] ∧
    ([65, 66, 67, 66, 67, 67, 68] : List Nat) ≠ [65, 66, 67, 66, 67, 66, 68] :=
  ⟨rfl, rfl, by decide⟩

/-- Witness for C5 at `W = 16` (self-extension of `[65,66]` under token
`(1,3,67)`) and at `W = 4`, `M = 15` (the all-`A` round trip). -/
theorem c5_witness :
    (∃ h2, decodeToken 16 (1, 3, 67) [] [65, 66] =
      .ok ([] ++ (selfExtendGo [65, 66] 1 3).drop 2 ++ [67], h2)) ∧
    decompress_stream (compress (List.replicate 8 65) 4 15) 4 =
      .ok (List.replicate 8 65) :=
  ⟨(c5_overlapping_copy 16 15 (by decide) (by decide)).1 1 3 67 [] [65, 66]
      (by decide) (by decide) (by decide) (by decide),
    (c5_overlapping_copy 4 15 (by decide) (by decide)).2⟩

/-- C10 (amended): for a token passing the decoder's own validation
(`1 ≤ distance ≤ hist.length ≤ window_size`), every copy-loop read is in
bounds — equivalently, the token decodes — **iff**
`hist.length + length ≤ window_size + distance`; beyond that bound the
per-append front-truncation outruns the fixed read index `start + k` and
the read returns `none` (Python `IndexError`), see `c10_counterexample`. -/
theorem c10_validated_reads_iff (W d l lit : Nat) (out hist : List Nat)
    (hd : 1 ≤ d) (hdh : d ≤ hist.length) (hhW : hist.length ≤ W) :
    (∃ r, decodeToken W (d, l, lit) out hist = .ok r) ↔
      hist.length + l ≤ W + d := by
  constructor
  · rintro ⟨r, hr⟩
    by_contra hgt
    push_neg at hgt
    have hl0 : l ≠ 0 := by omega
    unfold decodeToken at hr
    dsimp only at hr
    rw [if_neg hl0, if_neg (by omega), if_neg (by omega)] at hr
    rw [copyLoop_fail W d hist.length l 0 out hist hd hdh hhW (by omega)
      (by omega) (by omega)] at hr
    exact absurd hr (by simp)
  · intro hle
    by_cases hl0 : l = 0
    · subst hl0
      refine ⟨(out ++ [lit], trunc W (hist ++ [lit])), ?_⟩
      unfold decodeToken
      dsimp only
      rw [if_pos rfl]
    · obtain ⟨r, hcl⟩ := copyLoop_ok W d hist.length l 0 out hist hd hdh hhW
        (by omega) (by omega)
      obtain ⟨o2, h2⟩ := r
      refine ⟨(o2 ++ [lit], trunc W (h2 ++ [lit])), ?_⟩
      unfold decodeToken
      dsimp only
      rw [if_neg hl0, if_neg (by omega), if_neg (by omega), hcl]

/-- C10 (counterexample): the token `(1, 4, 68)` against history
`[65, 66, 67]` with `window_size = 3` passes validation (`1 ≤ 1 ≤ 3`),
yet the copy loop's second read is out of bounds: the Option-valued
indexing returns `none` and decoding fails with `histOob`. -/
theorem c10_counterexample :
    ¬ badTok (1, 4, 68) [65, 66, 67] ∧
    decompress_stream [(0, 0, 65), (0, 0, 66), (0, 0, 67), (1, 4, 68)] 3 =
      .error .histOob ∧
    copyLoop 3 2 4 0 [65, 66, 67] [65, 66, 67] = .error .histOob :=
  ⟨by decide, rfl, rfl⟩

/-- Witness for C10: token `(2, 2, 67)` against history `[65, 66]` with
`window_size = 2` sits exactly on the bound and decodes. -/
theorem c10_witness :
    (∃ r, decodeToken 2 (2, 2, 67) [] [65, 66] = .ok r) ↔ 2 + 2 ≤ 2 + 2 :=
  c10_validated_reads_iff 2 2 2 67 [] [65, 66] (by decide) (by decide)
    (by decide)

end LZ77
